import Mathlib

/-!
Verification development for the MAVE data-cleaning pipeline
(`clean_amazon_product_metadata_main.py`).

The per-record transformations of the pipeline are shallowly embedded as
executable Lean functions over lists of characters.  Python strings are
modelled as Lean `String` (sequences of Unicode scalar values); Python
`str.split()` / `str.strip()` / `' '.join` are reimplemented character by
character on `List Char` so that every definition reduces inside the
kernel.  Whitespace is modelled as the ASCII whitespace characters that
Python treats as whitespace.  Fallible Python code (exceptions) is
modelled with `Except Unit` / `Option`.
-/

/-- The ASCII whitespace characters recognised by Python `str.split()` and
`str.strip()` (the model restricts attention to ASCII whitespace). -/
def isSpace (c : Char) : Bool :=
  c = ' ' || c = '\t' || c = '\n' || c = '\x0d' || c = '\x0b' || c = '\x0c'

/-- Tokeniser behind Python `str.split()`: accumulator holds the current
token reversed; maximal runs of whitespace separate tokens, empty tokens
never occur. -/
def wtokensAux : List Char → List Char → List (List Char)
  | [], acc => if acc = [] then [] else [acc.reverse]
  | c :: cs, acc =>
    if isSpace c then
      if acc = [] then wtokensAux cs []
      else acc.reverse :: wtokensAux cs []
    else wtokensAux cs (c :: acc)

/-- Python `text.split()` on the character list. -/
def wtokens (l : List Char) : List (List Char) := wtokensAux l []

/-- Python `text.split()`, returning strings. -/
def pySplit (s : String) : List String := (wtokens s.data).map (fun l => ⟨l⟩)

/-- `' '.join` on character lists. -/
def joinSp : List (List Char) → List Char
  | [] => []
  | [t] => t
  | t :: t' :: rest => t ++ ' ' :: joinSp (t' :: rest)

/-- Python `' '.join(text.split())`: collapse all whitespace runs to single
spaces and trim the ends. -/
def normalizeWs (s : String) : String := ⟨joinSp (wtokens s.data)⟩

/-- Python `str.strip()`: drop leading whitespace. -/
def dropLead (l : List Char) : List Char := l.dropWhile isSpace

/-- Python `str.strip()` on a character list: drop leading and trailing
whitespace. -/
def pyStripL (l : List Char) : List Char :=
  ((l.dropWhile isSpace).reverse.dropWhile isSpace).reverse

/-- Python `str.strip()`. -/
def pyStrip (s : String) : String := ⟨pyStripL s.data⟩

/-- Boolean prefix test on character lists. -/
def listIsPrefixOf : List Char → List Char → Bool
  | [], _ => true
  | _ :: _, [] => false
  | a :: asx, b :: bs => a = b && listIsPrefixOf asx bs

/-- Boolean infix (substring) test on character lists. -/
def listIsInfix (pat : List Char) : List Char → Bool
  | [] => listIsPrefixOf pat []
  | c :: rest => listIsPrefixOf pat (c :: rest) || listIsInfix pat rest

/-- Python `pat in s` substring test. -/
def strContains (s pat : String) : Bool := listIsInfix pat.data s.data

/-- Python `s.startswith(p)`. -/
def strStartsWith (s p : String) : Bool := listIsPrefixOf p.data s.data

/-- One token of `is_css`: Python
`token.startswith(('.', '#', 'div')) or 'px' in token or
len(re.findall('-', token)) > 1`. -/
def isCssToken (token : String) : Bool :=
  strStartsWith token "." || strStartsWith token "#" || strStartsWith token "div" ||
    strContains token "px" || decide (token.data.count '-' > 1)

/-- The `(num_tokens, num_css_elements)` pair accumulated by the loop in
`is_css`. -/
def cssCounts (text : String) : Nat × Nat :=
  (pySplit text).foldl
    (fun nc token => (nc.1 + 1, if isCssToken token then nc.2 + 1 else nc.2))
    (0, 0)

/-- Source `is_css`: tokenise on whitespace, count CSS-looking tokens, and
flag the text when `num_css_elements / num_tokens > 0.3 and
num_css_elements > 20`.  The Python float division raises
`ZeroDivisionError` on zero tokens, modelled by `none`; the float
comparison with the literal `0.3` agrees with the exact rational
comparison `> 3/10` for every token count that fits in a 64-bit float
(the two differ only when `num_tokens` exceeds roughly `10^15`). -/
def is_css (text : String) : Option Bool :=
  let nc := cssCounts text
  if nc.1 = 0 then none
  else if Rat.divInt (Int.ofNat nc.2) (Int.ofNat nc.1) > Rat.divInt 3 10 ∧ nc.2 > 20 then
    some true
  else some false

/-- The guard of `is_css` written with `Rat.divInt` is the exact rational
division `num_css_elements / num_tokens > 0.3` of the source. -/
theorem is_css_ratio_eq (c n : Nat) :
    (Rat.divInt (Int.ofNat c) (Int.ofNat n) > Rat.divInt 3 10) ↔ ((c : ℚ) / (n : ℚ) > 3 / 10) := by
  rw [Rat.divInt_eq_div, Rat.divInt_eq_div]
  push_cast
  norm_num

/-- The residual-HTML literal markers tested by `is_html`, in source
order. -/
def HTML_MARKERS : List String :=
  ["<a href", "javascript:", "background-color:", "background-image:", " li:", ".aloha"]

/-- Source `is_html`: the chain of literal substring tests. -/
def is_html (text : String) : Bool :=
  if strContains text "<a href" then true
  else if strContains text "javascript:" then true
  else if strContains text "background-color:" then true
  else if strContains text "background-image:" then true
  else if strContains text " li:" then true
  else if strContains text ".aloha" then true
  else false

theorem is_html_eq_any (text : String) :
    is_html text = (HTML_MARKERS.any (fun m => strContains text m)) := by
  unfold is_html HTML_MARKERS
  cases h1 : strContains text "<a href" <;>
  cases h2 : strContains text "javascript:" <;>
  cases h3 : strContains text "background-color:" <;>
  cases h4 : strContains text "background-image:" <;>
  cases h5 : strContains text " li:" <;>
  cases h6 : strContains text ".aloha" <;>
  simp [h1, h2, h3, h4, h5, h6]

-- Basic facts about the `str.split()` model.

theorem wtokensAux_all_space (l : List Char) (h : ∀ c ∈ l, isSpace c = true) :
    wtokensAux l [] = [] := by
  induction l with
  | nil => simp [wtokensAux]
  | cons c cs ih =>
    have hc : isSpace c = true := h c (by simp)
    simp [wtokensAux, hc]
    exact ih (fun d hd => h d (by simp [hd]))

theorem wtokensAux_tokens_ok (l : List Char) :
    ∀ acc, (∀ c ∈ acc, isSpace c = false) →
      ∀ t ∈ wtokensAux l acc, t ≠ [] ∧ ∀ c ∈ t, isSpace c = false := by
  induction l with
  | nil =>
    intro acc hacc t ht
    simp only [wtokensAux] at ht
    by_cases h : acc = []
    · simp [h] at ht
    · simp [h] at ht
      subst ht
      refine ⟨by simpa using h, fun c hc => hacc c (by simpa using hc)⟩
  | cons c cs ih =>
    intro acc hacc t ht
    simp only [wtokensAux] at ht
    by_cases hc : isSpace c
    · simp [hc] at ht
      by_cases h : acc = []
      · simp [h] at ht
        exact ih [] (by simp) t ht
      · simp [h] at ht
        rcases ht with ht | ht
        · subst ht
          refine ⟨by simpa using h, fun d hd => hacc d (by simpa using hd)⟩
        · exact ih [] (by simp) t ht
    · simp [hc] at ht
      refine ih (c :: acc) ?_ t ht
      intro d hd
      rcases List.mem_cons.mp hd with h | h
      · subst h; simpa using hc
      · exact hacc d h

theorem wtokensAux_token_append (t : List Char) (rest : List Char) :
    ∀ acc, (∀ c ∈ t, isSpace c = false) →
      wtokensAux (t ++ rest) acc = wtokensAux rest (t.reverse ++ acc) := by
  induction t with
  | nil => intro acc _; simp
  | cons c t' ih =>
    intro acc h
    have hc : isSpace c = false := h c (by simp)
    have step : wtokensAux ((c :: t') ++ rest) acc = wtokensAux (t' ++ rest) (c :: acc) := by
      simp [wtokensAux, hc]
    rw [step, List.reverse_cons, List.append_assoc, List.singleton_append]
    exact ih (c :: acc) (fun d hd => h d (by simp [hd]))

theorem wtokens_joinSp (L : List (List Char))
    (h : ∀ t ∈ L, t ≠ [] ∧ ∀ c ∈ t, isSpace c = false) :
    wtokens (joinSp L) = L := by
  induction L with
  | nil => simp [wtokens, joinSp, wtokensAux]
  | cons t rest ih =>
    obtain ⟨htne, htc⟩ := h t (by simp)
    cases rest with
    | nil =>
      simp only [joinSp, wtokens]
      rw [show t = t ++ [] by simp, wtokensAux_token_append t [] [] htc]
      simp [wtokensAux, htne]
    | cons t' rest' =>
      simp only [joinSp, wtokens]
      rw [wtokensAux_token_append t (' ' :: joinSp (t' :: rest')) [] htc]
      have hne : ¬(t.reverse ++ ([] : List Char) = []) := by simpa using htne
      have step : wtokensAux (' ' :: joinSp (t' :: rest')) (t.reverse ++ [])
          = (t.reverse ++ []).reverse :: wtokensAux (joinSp (t' :: rest')) [] := by
        simp only [wtokensAux]
        rw [if_pos (by decide : isSpace ' ' = true), if_neg hne]
      rw [step]
      simp only [List.append_nil, List.reverse_reverse]
      have := ih (fun u hu => h u (by simp [hu]))
      simp only [wtokens] at this
      rw [this]

theorem wtokens_normalizeWs (s : String) :
    wtokens (normalizeWs s).data = wtokens s.data := by
  show wtokens (joinSp (wtokens s.data)) = wtokens s.data
  exact wtokens_joinSp (wtokens s.data)
    (fun t ht => wtokensAux_tokens_ok s.data [] (by simp) t ht)

theorem normalizeWs_idem (s : String) :
    normalizeWs (normalizeWs s) = normalizeWs s := by
  show (⟨joinSp (wtokens (normalizeWs s).data)⟩ : String) = normalizeWs s
  rw [wtokens_normalizeWs]
  rfl

theorem normalizeWs_ne_empty_tokens (s : String) (h : normalizeWs s ≠ "") :
    wtokens (normalizeWs s).data ≠ [] := by
  rw [wtokens_normalizeWs]
  intro hnil
  apply h
  show (⟨joinSp (wtokens s.data)⟩ : String) = ""
  rw [hnil]
  rfl

theorem joinSp_last_not_space (L : List (List Char))
    (h : ∀ t ∈ L, t ≠ [] ∧ ∀ c ∈ t, isSpace c = false) (hne : L ≠ []) :
    ∃ l' c, joinSp L = l' ++ [c] ∧ isSpace c = false := by
  induction L with
  | nil => exact absurd rfl hne
  | cons t rest ih =>
    obtain ⟨htne, htc⟩ := h t (by simp)
    cases rest with
    | nil =>
      refine ⟨t.dropLast, t.getLast htne, ?_, htc _ (List.getLast_mem htne)⟩
      simp [joinSp, List.dropLast_append_getLast htne]
    | cons t' rest' =>
      obtain ⟨l', c, hjoin, hc⟩ := ih (fun u hu => h u (by simp [hu])) (by simp)
      refine ⟨t ++ ' ' :: l', c, ?_, hc⟩
      simp [joinSp, hjoin]

theorem pyStripL_joinSp (L : List (List Char))
    (h : ∀ t ∈ L, t ≠ [] ∧ ∀ c ∈ t, isSpace c = false) :
    pyStripL (joinSp L) = joinSp L := by
  cases hL : L with
  | nil => simp [joinSp, pyStripL]
  | cons t rest =>
    obtain ⟨htne, htc⟩ := h t (by simp [hL])
    have hlead : (joinSp (t :: rest)).dropWhile isSpace = joinSp (t :: rest) := by
      cases t with
      | nil => exact absurd rfl htne
      | cons c t' =>
        have hc : isSpace c = false := htc c (by simp)
        cases rest with
        | nil => simp [joinSp, List.dropWhile_cons, hc]
        | cons u us => simp [joinSp, List.dropWhile_cons, hc]
    obtain ⟨l', c, hjoin, hc⟩ := joinSp_last_not_space (t :: rest)
      (fun u hu => h u (hL ▸ hu)) (by simp)
    unfold pyStripL
    rw [hlead, hjoin]
    simp [List.dropWhile_cons, hc]

theorem pyStrip_normalizeWs (s : String) :
    pyStripL (normalizeWs s).data = (normalizeWs s).data := by
  show pyStripL (joinSp (wtokens s.data)) = joinSp (wtokens s.data)
  exact pyStripL_joinSp (wtokens s.data)
    (fun t ht => wtokensAux_tokens_ok s.data [] (by simp) t ht)

/-!
Model of `remove_tags`, which in the source parses the text with
`bs4.BeautifulSoup(html, 'html.parser')`, decomposes every `style` and
`script` element, and returns `' '.join(soup.stripped_strings)`.

The parser is modelled as a single-pass character state machine mirroring
Python `html.parser` as driven by BeautifulSoup:
- consecutive character data is merged into one string; data strings are
  split at every tag / comment / declaration boundary;
- character references in data are decoded; the model decodes the named
  references `lt`, `gt`, `amp` (with semicolon) and decimal numeric
  references (with or without semicolon; invalid code points give U+FFFD);
  other references stay literal;
- `<` followed by an ASCII letter opens a start tag (name up to
  whitespace, `/` or `>`, lowercased; attributes are skipped up to `>`,
  with a trailing `/` marking a self-closing tag); `</` opens an end tag;
  `<!--` opens a comment closed by `-->`; `<!` and `<?` open
  declarations / processing instructions closed by `>`; any other `<` is
  literal data;
- after a non-self-closing `script` or `style` start tag, content is raw
  text up to the matching `</name`, forming one element that
  `remove_tags` drops entirely (`decompose`);
- an unterminated tag at end of input is literal data; comments,
  declarations, tag markers and end tags contribute no text.
-/

/-- One token of the markup parse. -/
inductive HTok where
  | data : List Char → HTok
  | tagOpen : List Char → HTok
  | tagClose : List Char → HTok
  | cdataElem : List Char → List Char → HTok
deriving DecidableEq

/-- Parser mode of the markup state machine. -/
inductive TMode where
  | text : TMode
  | amp : List Char → TMode
  | num : List Char → TMode
  | lt : TMode
  | tagName : List Char → List Char → TMode
  | tagRest : List Char → List Char → Bool → TMode
  | endTag : List Char → List Char → TMode
  | bang : List Char → TMode
  | bang2 : List Char → TMode
  | comment : Nat → TMode
  | decl : List Char → TMode
  | pi : List Char → TMode
  | cdata : List Char → List Char → Nat → TMode
  | cdataEnd : TMode
deriving DecidableEq

/-- Push a reading-order string onto a reversed accumulator. -/
def pushStr (s : List Char) (acc : List Char) : List Char := s.reverse ++ acc

/-- Flush the pending data accumulator as one data token (BeautifulSoup
merges consecutive character data into a single string). -/
def flushData (acc : List Char) (toks : List HTok) : List HTok :=
  if acc = [] then toks else .data acc.reverse :: toks

/-- ASCII letter test. -/
def isAsciiLetter (c : Char) : Bool :=
  ('a' ≤ c && c ≤ 'z') || ('A' ≤ c && c ≤ 'Z')

/-- ASCII digit test. -/
def isDigitC (c : Char) : Bool := '0' ≤ c && c ≤ '9'

/-- ASCII lowercasing (html.parser lowercases tag names). -/
def lowerC (c : Char) : Char :=
  if 'A' ≤ c && c ≤ 'Z' then Char.ofNat (c.toNat + 32) else c

/-- Characters that continue a tag name in html.parser. -/
def nameCharB (c : Char) : Bool :=
  !(c = '\t' || c = '\n' || c = '\x0d' || c = '\x0c' || c = ' ' ||
    c = '/' || c = '>' || c = '\x00')

/-- Characters that may appear in a named character reference. -/
def entNameChar (c : Char) : Bool :=
  !(c = '\t' || c = '\n' || c = '\x0c' || c = ' ' || c = '<' || c = '&' ||
    c = '#' || c = ';')

/-- The named character references the model decodes. -/
def entChar : List Char → Option Char
  | ['l', 't'] => some '<'
  | ['g', 't'] => some '>'
  | ['a', 'm', 'p'] => some '&'
  | _ => none

/-- Decode a decimal numeric character reference; invalid code points give
the U+FFFD replacement character as Python html.unescape does. -/
def numDecode (digits : List Char) : Char :=
  let n := digits.foldl (fun a c => a * 10 + (c.toNat - 48)) 0
  if Nat.isValidChar n then Char.ofNat n else '�'

/-- Lowercased letters-and-name-characters prefix of an end tag body. -/
def endName (l : List Char) : List Char :=
  ((l.dropWhile isSpace).takeWhile nameCharB).map lowerC

/-- The lowercased name of the script element. -/
def sSCRIPT : List Char := ['s', 'c', 'r', 'i', 'p', 't']

/-- The lowercased name of the style element. -/
def sSTYLE : List Char := ['s', 't', 'y', 'l', 'e']

/-- The markup state machine.  Arguments: remaining input, mode, pending
data accumulator (reversed), emitted tokens (reversed). -/
def tokA : List Char → TMode → List Char → List HTok → List HTok
  | [], mode, acc, toks =>
    match mode with
    | .text => flushData acc toks
    | .amp buf => flushData (pushStr ('&' :: buf.reverse) acc) toks
    | .num buf =>
      if buf = [] then flushData (pushStr ['&', '#'] acc) toks
      else flushData (numDecode buf.reverse :: acc) toks
    | .lt => flushData ('<' :: acc) toks
    | .tagName _ raw => flushData (pushStr ('<' :: raw.reverse) acc) toks
    | .tagRest _ raw _ => flushData (pushStr ('<' :: raw.reverse) acc) toks
    | .endTag _ raw => flushData (pushStr ('<' :: '/' :: raw.reverse) acc) toks
    | .bang raw => flushData (pushStr ('<' :: '!' :: raw.reverse) acc) toks
    | .bang2 raw => flushData (pushStr ('<' :: '!' :: '-' :: raw.reverse) acc) toks
    | .comment _ => flushData acc toks
    | .decl _ => flushData acc toks
    | .pi _ => flushData acc toks
    | .cdata name raw _ => .cdataElem name raw.reverse :: flushData acc toks
    | .cdataEnd => flushData acc toks
  | c :: rest, mode, acc, toks =>
    match mode with
    | .text =>
      if c = '&' then tokA rest (.amp []) acc toks
      else if c = '<' then tokA rest .lt acc toks
      else tokA rest .text (c :: acc) toks
    | .amp buf =>
      if c = '#' && decide (buf = []) then tokA rest (.num []) acc toks
      else if c = ';' then
        match entChar buf.reverse with
        | some e => tokA rest .text (e :: acc) toks
        | none => tokA rest .text (pushStr ('&' :: buf.reverse ++ [';']) acc) toks
      else if c = '&' then tokA rest (.amp []) (pushStr ('&' :: buf.reverse) acc) toks
      else if c = '<' then tokA rest .lt (pushStr ('&' :: buf.reverse) acc) toks
      else if entNameChar c then tokA rest (.amp (c :: buf)) acc toks
      else tokA rest .text (c :: pushStr ('&' :: buf.reverse) acc) toks
    | .num buf =>
      if isDigitC c then tokA rest (.num (c :: buf)) acc toks
      else if buf = [] then
        if c = '&' then tokA rest (.amp []) (pushStr ['&', '#'] acc) toks
        else if c = '<' then tokA rest .lt (pushStr ['&', '#'] acc) toks
        else tokA rest .text (c :: pushStr ['&', '#'] acc) toks
      else
        if c = ';' then tokA rest .text (numDecode buf.reverse :: acc) toks
        else if c = '&' then tokA rest (.amp []) (numDecode buf.reverse :: acc) toks
        else if c = '<' then tokA rest .lt (numDecode buf.reverse :: acc) toks
        else tokA rest .text (c :: numDecode buf.reverse :: acc) toks
    | .lt =>
      if isAsciiLetter c then tokA rest (.tagName [lowerC c] [c]) acc toks
      else if c = '/' then tokA rest (.endTag [] []) acc toks
      else if c = '!' then tokA rest (.bang []) acc toks
      else if c = '?' then tokA rest (.pi []) acc toks
      else if c = '<' then tokA rest .lt ('<' :: acc) toks
      else if c = '&' then tokA rest (.amp []) ('<' :: acc) toks
      else tokA rest .text (c :: '<' :: acc) toks
    | .tagName name raw =>
      if c = '>' then
        let nm := name.reverse
        if nm = sSCRIPT || nm = sSTYLE then
          tokA rest (.cdata nm [] 0) [] (flushData acc toks)
        else tokA rest .text [] (.tagOpen nm :: flushData acc toks)
      else if nameCharB c then tokA rest (.tagName (lowerC c :: name) (c :: raw)) acc toks
      else tokA rest (.tagRest name (c :: raw) (c = '/')) acc toks
    | .tagRest name raw slash =>
      if c = '>' then
        let nm := name.reverse
        if !slash && (nm = sSCRIPT || nm = sSTYLE) then
          tokA rest (.cdata nm [] 0) [] (flushData acc toks)
        else tokA rest .text [] (.tagOpen nm :: flushData acc toks)
      else if c = '/' then tokA rest (.tagRest name (c :: raw) true) acc toks
      else if isSpace c then tokA rest (.tagRest name (c :: raw) slash) acc toks
      else tokA rest (.tagRest name (c :: raw) false) acc toks
    | .endTag buf raw =>
      if c = '>' then
        tokA rest .text [] (.tagClose (endName buf.reverse) :: flushData acc toks)
      else tokA rest (.endTag (c :: buf) (c :: raw)) acc toks
    | .bang raw =>
      if c = '-' then tokA rest (.bang2 raw) acc toks
      else if c = '>' then tokA rest .text [] (flushData acc toks)
      else tokA rest (.decl (c :: raw)) acc toks
    | .bang2 raw =>
      if c = '-' then tokA rest (.comment 0) acc toks
      else if c = '>' then tokA rest .text [] (flushData acc toks)
      else tokA rest (.decl (c :: '-' :: raw)) acc toks
    | .comment m =>
      if c = '>' && decide (m ≥ 2) then tokA rest .text [] (flushData acc toks)
      else if c = '-' then tokA rest (.comment (min (m + 1) 2)) acc toks
      else tokA rest (.comment 0) acc toks
    | .decl raw =>
      if c = '>' then tokA rest .text [] (flushData acc toks)
      else tokA rest (.decl (c :: raw)) acc toks
    | .pi raw =>
      if c = '>' then tokA rest .text [] (flushData acc toks)
      else tokA rest (.pi (c :: raw)) acc toks
    | .cdata name raw m =>
      let pat := '<' :: '/' :: name
      if lowerC c = pat.getD m ' ' then
        if m + 1 = pat.length then
          tokA rest .cdataEnd [] (.cdataElem name ((raw.drop (pat.length - 1)).reverse) :: toks)
        else tokA rest (.cdata name (c :: raw) (m + 1)) acc toks
      else if c = '<' then tokA rest (.cdata name (c :: raw) 1) acc toks
      else tokA rest (.cdata name (c :: raw) 0) acc toks
    | .cdataEnd =>
      if c = '>' then tokA rest .text [] toks
      else tokA rest .cdataEnd [] toks

/-- Tokenise a character list, tokens in reading order. -/
def tokenize (l : List Char) : List HTok := (tokA l .text [] []).reverse

/-- The character-data segments of a token stream, dropping tag markers
and decomposed script / style elements. -/
def dataSegs : List HTok → List (List Char)
  | [] => []
  | .data d :: r => d :: dataSegs r
  | .tagOpen _ :: r => dataSegs r
  | .tagClose _ :: r => dataSegs r
  | .cdataElem _ _ :: r => dataSegs r

/-- Source `remove_tags`: parse the markup, decompose `style` and `script`
elements, and join the stripped non-empty strings with single spaces. -/
def remove_tags (html : String) : String :=
  ⟨joinSp (((dataSegs (tokenize html.data)).map pyStripL).filter (fun l => l ≠ []))⟩

/-!
Data model of the pipeline records.  JSON values are modelled to the depth
the pipeline functions inspect them: a field value is a string, a flat
array of leaves, or another leaf; label records and metadata records are
string-keyed association lists with distinct keys (Python dicts).
-/

instance exceptDecEq {ε α : Type} [DecidableEq ε] [DecidableEq α] :
    DecidableEq (Except ε α) := fun
  | .error e, .error e' =>
    if h : e = e' then .isTrue (by rw [h])
    else .isFalse (by intro hh; injection hh; contradiction)
  | .error _, .ok _ => .isFalse (by intro h; exact Except.noConfusion h)
  | .ok _, .error _ => .isFalse (by intro h; exact Except.noConfusion h)
  | .ok a, .ok b =>
    if h : a = b then .isTrue (by rw [h])
    else .isFalse (by intro hh; injection hh; contradiction)

/-- A JSON leaf value. -/
inductive JLeaf where
  | jstr : String → JLeaf
  | jnum : Int → JLeaf
  | jbool : Bool → JLeaf
  | jnull : JLeaf
deriving DecidableEq

/-- A JSON field value, to the depth the pipeline inspects it. -/
inductive JVal where
  | atom : JLeaf → JVal
  | jarr : List JLeaf → JVal
deriving DecidableEq

/-- A JSON object: association list with the keys of a Python dict. -/
abbrev JObj := List (String × JVal)

/-- First-match association-list lookup, the model of Python dict
indexing (dict keys are unique, so first match is the only match). -/
def alookup {α : Type} : List (String × α) → String → Option α
  | [], _ => none
  | (k', v) :: rest, k => if k' = k then some v else alookup rest k

/-- A paragraph `{text, source}` as built by `ConvertSourcesFn`. -/
structure Paragraph where
  text : String
  source : String
deriving DecidableEq

/-- The document-shaped input that `CleanParagraphsFn.process` reads from
the output of `ConvertSourcesFn` (fields `paragraphs`, `id`, `category`,
`attributes`). -/
structure CleanInput where
  id : JVal
  category : JVal
  paragraphs : List Paragraph
  attributes : JVal
deriving DecidableEq

/-- A cleaned output document. -/
structure Document where
  id : JVal
  category : JVal
  paragraphs : List Paragraph
  attributes : JVal
deriving DecidableEq

/-- Python `text.encode('utf-8', 'ignore').decode('utf-8')`.  A Lean
`String` contains only valid Unicode scalar values, for which the UTF-8
round trip is the identity (the `'ignore'` handler only drops lone
surrogates, which cannot occur in the model). -/
def unicodeRoundtrip (s : String) : String := s

/-- The `text_space_cleaned` value of `CleanParagraphsFn.process`: the
unicode round trip (`text_recovered`), then `remove_tags`
(`text_html_cleaned`), then whitespace normalization. -/
def cleanText (p : Paragraph) : String :=
  normalizeWs (remove_tags (unicodeRoundtrip p.text))

/-- The per-paragraph body of `CleanParagraphsFn.process`: the ordered
filter / transform chain.  `.ok none` means the paragraph is dropped,
`.ok (some q)` that `q` is appended, `.error ()` that the Python code
raises (`ZeroDivisionError` inside `is_css`). -/
def cleanParagraph (p : Paragraph) : Except Unit (Option Paragraph) :=
  if p.source = "title" ∧ strContains p.text "getTime" then .ok none
  else if cleanText p = "" then .ok none
  else if is_html (cleanText p) then .ok none
  else
    match is_css (cleanText p) with
    | none => .error ()
    | some true => .ok none
    | some false => .ok (some ⟨unicodeRoundtrip (cleanText p), p.source⟩)

/-- The paragraph loop of `CleanParagraphsFn.process`: clean each
paragraph in order, keeping the survivors. -/
def cleanParagraphs : List Paragraph → Except Unit (List Paragraph)
  | [] => .ok []
  | p :: rest =>
    match cleanParagraph p with
    | .error e => .error e
    | .ok q =>
      match cleanParagraphs rest with
      | .error e => .error e
      | .ok qs =>
        match q with
        | some q' => .ok (q' :: qs)
        | none => .ok qs

/-- `CleanParagraphsFn.process`: clean the paragraphs, then emit a
document only when some surviving paragraph has source `title` (the
`for ... else` title scan). -/
def cleanProcess (input : CleanInput) : Except Unit (Option Document) :=
  match cleanParagraphs input.paragraphs with
  | .error e => .error e
  | .ok ps =>
    if ps.any (fun p => p.source = "title") then
      .ok (some ⟨input.id, input.category, ps, input.attributes⟩)
    else
      .ok none

/-- `JoinWithLabelsFn.process`: look the record's `asin` up in the label
map, treating a missing `asin` as the empty string (`.get(_ASIN, '')`);
drop the record when the lookup misses or the matched label is falsy (an
empty dict, since label records are JSON objects).  Identifiers are
modelled as strings, so a non-string `asin` matches no entry; the
`copy.deepcopy` of the label is the identity in this pure value model.
`asinKey` is the effective lookup key: the asin string, or the empty
string when the field is missing, or no key for a non-string asin. -/
def asinKey (json_example : JObj) : Option String :=
  match (alookup json_example "asin").getD (.atom (.jstr "")) with
  | .atom (.jstr s) => some s
  | _ => none

def joinWithLabels (json_example : JObj) (labels_by_id : List (String × JObj)) :
    Option (JObj × JObj) :=
  match asinKey json_example with
  | none => none
  | some k =>
    match alookup labels_by_id k with
    | none => none
    | some labels => if labels = [] then none else some (json_example, labels)

/-- The five source fields, in the fixed order of `_SOURCES`. -/
def SOURCES : List String := ["title", "description", "feature", "price", "brand"]

/-- Python `text.strip()` on a candidate element of a source field: raises
`AttributeError` (modelled as `.error ()`) when the element is not a
string. -/
def stripElem : JLeaf → Except Unit String
  | .jstr s => .ok (pyStrip s)
  | _ => .error ()

/-- The candidate text list of `_create_paragraphs`: a string field is a
one-element list, a list field is itself, anything else is empty. -/
def fieldTexts (json_example : JObj) (source : String) : List JLeaf :=
  match (alookup json_example source).getD (.jarr []) with
  | .atom (.jstr s) => [.jstr s]
  | .jarr xs => xs
  | _ => []

/-- The list comprehension of `_create_paragraphs`: keep a paragraph for
each candidate whose stripped text is non-empty, in order. -/
def stripFilter (source : String) : List JLeaf → Except Unit (List Paragraph)
  | [] => .ok []
  | t :: rest =>
    match stripElem t with
    | .error e => .error e
    | .ok st =>
      match stripFilter source rest with
      | .error e => .error e
      | .ok ps => if st = "" then .ok ps else .ok (⟨st, source⟩ :: ps)

/-- `ConvertSourcesFn._create_paragraphs`. -/
def createParagraphs (source : String) (json_example : JObj) :
    Except Unit (List Paragraph) :=
  stripFilter source (fieldTexts json_example source)

/-- `itertools.chain.from_iterable` over the sources in `_SOURCES`
order. -/
def paragraphsForSources : List String → JObj → Except Unit (List Paragraph)
  | [], _ => .ok []
  | s :: rest, json_example =>
    match createParagraphs s json_example with
    | .error e => .error e
    | .ok ps =>
      match paragraphsForSources rest json_example with
      | .error e => .error e
      | .ok qs => .ok (ps ++ qs)

/-- A value of the dict built by `ConvertSourcesFn.process`: either the
flattened paragraph list or a value copied from the label record. -/
inductive OVal where
  | fromLabel : JVal → OVal
  | paras : List Paragraph → OVal
deriving DecidableEq

/-- The output object of `ConvertSourcesFn.process`. -/
abbrev OObj := List (String × OVal)

/-- Python dict insertion: overwrite an existing key in place, otherwise
append. -/
def dictInsert (d : OObj) (k : String) (v : OVal) : OObj :=
  if d.any (fun kv => kv.1 = k) then
    d.map (fun kv => if kv.1 = k then (k, v) else kv)
  else d ++ [(k, v)]

/-- `ConvertSourcesFn.process`: build `{'paragraphs': paragraphs,
**labels}` — the dict literal starts with the flattened paragraphs and
then unpacks the (deep-copied) label record, so label keys overwrite
like-named keys. -/
def convertSources (json_example : JObj) (labels : JObj) : Except Unit OObj :=
  match paragraphsForSources SOURCES json_example with
  | .error e => .error e
  | .ok pss =>
    .ok (labels.foldl (fun d kv => dictInsert d kv.1 (.fromLabel kv.2))
      [("paragraphs", .paras pss)])

/-- One step of grouping documents by identifier, preserving both the
order of first key occurrence and the order within a group. -/
def addToGroups (gs : List (JVal × List Document)) (d : Document) :
    List (JVal × List Document) :=
  if gs.any (fun g => g.1 = d.id) then
    gs.map (fun g => if g.1 = d.id then (g.1, g.2 ++ [d]) else g)
  else gs ++ [(d.id, [d])]

/-- The `GroupByASIN` stage: group documents by `x['id']` in the order
the caller supplies them (the keyed-grouping primitive of the execution
engine, modelled as order-preserving grouping per the spec's contract). -/
def groupById (docs : List Document) : List (JVal × List Document) :=
  docs.foldl addToGroups []

/-- The `DedupeASIN` stage: `lambda x: list(x[1])[0]` — the first
document of each identifier's group. -/
def dedupe (docs : List Document) : List Document :=
  (groupById docs).filterMap (fun g => g.2.head?)

/-!
Properties of the CSS-noise detector.
-/

theorem cssCounts_foldl (toks : List String) :
    ∀ a b : Nat,
      toks.foldl (fun nc token => (nc.1 + 1, if isCssToken token then nc.2 + 1 else nc.2)) (a, b)
        = (a + toks.length, b + (toks.filter isCssToken).length) := by
  induction toks with
  | nil => intro a b; simp
  | cons t rest ih =>
    intro a b
    simp only [List.foldl_cons, List.filter_cons, List.length_cons]
    by_cases ht : isCssToken t
    · rw [if_pos ht, ih]
      simp [ht]
      omega
    · rw [if_neg ht, ih]
      simp [ht]
      omega

theorem cssCounts_eq (text : String) :
    cssCounts text = ((pySplit text).length, ((pySplit text).filter isCssToken).length) := by
  unfold cssCounts
  have := cssCounts_foldl (pySplit text) 0 0
  simpa using this

/-- Modelled from the spec (for refinement comparison only): a token is a
CSS element when it starts with a period, a hash or the letters div, or
contains the substring px, or contains two or more hyphen characters. -/
def specCssElement (token : String) : Bool :=
  strStartsWith token "." || strStartsWith token "#" || strStartsWith token "div" ||
    strContains token "px" || decide (2 ≤ token.data.count '-')

/-- Modelled from the spec (for refinement comparison only): drop the
paragraph when the CSS-element ratio exceeds 0.3 and the CSS-element
count exceeds 20. -/
def specDropCss (text : String) : Bool :=
  let toks := pySplit text
  let c := (toks.filter specCssElement).length
  decide ((c : ℚ) / (toks.length : ℚ) > 3 / 10) && decide (c > 20)

theorem specCssElement_eq_isCssToken : specCssElement = isCssToken := by
  funext t
  unfold specCssElement isCssToken
  have : decide (2 ≤ t.data.count '-') = decide (t.data.count '-' > 1) := by
    simp [decide_eq_decide]
    omega
  rw [this]

/-- The 25-token scenario-D text: 16 plain tokens and 9 px tokens. -/
def scenarioD_text : String :=
  String.intercalate " "
    ["the", "quick", "brown", "fox", "jumps", "over", "lazy", "dogs", "near",
     "river", "banks", "today", "and", "then", "some", "more",
     "1px", "2px", "3px", "4px", "5px", "6px", "7px", "8px", "9px"]

/-- Claim C2: the CSS-noise detector drops a paragraph exactly when, over
the whitespace tokens, the CSS-element ratio exceeds 0.3 and the
CSS-element count exceeds 20, with a token counting as a CSS element when
it starts with a period, hash or div, contains px, or has two or more
hyphens; a 25-token text with 9 CSS-element tokens (ratio 0.36) is
retained. -/
theorem C2_css_detector :
    (∀ text : String, pySplit text ≠ [] → is_css text = some (specDropCss text))
    ∧ is_css scenarioD_text = some false
    ∧ cssCounts scenarioD_text = (25, 9)
    ∧ ((9 : ℚ) / (25 : ℚ) > 3 / 10) := by
  refine ⟨?_, by decide, by decide, by norm_num⟩
  intro text hne
  have hlen : ¬((pySplit text).length = 0) := by simpa using hne
  unfold is_css specDropCss
  rw [specCssElement_eq_isCssToken, cssCounts_eq]
  show (if (pySplit text).length = 0 then none
      else if Rat.divInt (Int.ofNat ((pySplit text).filter isCssToken).length)
          (Int.ofNat (pySplit text).length) > Rat.divInt 3 10
          ∧ ((pySplit text).filter isCssToken).length > 20 then some true else some false)
    = some (decide ((((pySplit text).filter isCssToken).length : ℚ)
          / ((pySplit text).length : ℚ) > 3 / 10)
        && decide (((pySplit text).filter isCssToken).length > 20))
  rw [if_neg hlen]
  by_cases h1 : (((pySplit text).filter isCssToken).length : ℚ)
      / ((pySplit text).length : ℚ) > 3 / 10
  · by_cases h2 : ((pySplit text).filter isCssToken).length > 20
    · rw [if_pos ⟨(is_css_ratio_eq _ _).mpr h1, h2⟩]
      simp [h1, h2]
    · rw [if_neg (fun hh => h2 hh.2)]
      simp [h2]
  · rw [if_neg (fun hh => h1 ((is_css_ratio_eq _ _).mp hh.1))]
    simp [h1]

theorem C2_css_detector_witness :
    pySplit "a b" ≠ [] ∧ is_css "a b" = some (specDropCss "a b") :=
  ⟨by decide, C2_css_detector.1 "a b" (by decide)⟩

/-!
Safety of the division inside `is_css` along the cleaning chain.
-/

theorem is_css_none_iff (text : String) : is_css text = none ↔ pySplit text = [] := by
  unfold is_css
  rw [cssCounts_eq]
  show (if (pySplit text).length = 0 then none
      else if Rat.divInt (Int.ofNat ((pySplit text).filter isCssToken).length)
          (Int.ofNat (pySplit text).length) > Rat.divInt 3 10
          ∧ ((pySplit text).filter isCssToken).length > 20 then some true else some false)
      = none ↔ pySplit text = []
  by_cases h : (pySplit text).length = 0
  · rw [if_pos h]
    simpa using List.length_eq_zero.mp h
  · rw [if_neg h]
    constructor
    · intro hh
      split at hh <;> exact absurd hh (by simp)
    · intro hh
      exact absurd (by simp [hh] : (pySplit text).length = 0) h

theorem pySplit_normalizeWs_ne (s : String) (h : normalizeWs s ≠ "") :
    pySplit (normalizeWs s) ≠ [] := by
  unfold pySplit
  simp only [ne_eq, List.map_eq_nil_iff]
  exact normalizeWs_ne_empty_tokens s h

theorem cleanText_tokens_ne (p : Paragraph) (h : cleanText p ≠ "") :
    pySplit (cleanText p) ≠ [] :=
  pySplit_normalizeWs_ne (remove_tags (unicodeRoundtrip p.text)) h

theorem cleanParagraph_ne_error (p : Paragraph) : cleanParagraph p ≠ .error () := by
  unfold cleanParagraph
  split_ifs with h0 h1 h2
  · simp
  · simp
  · simp
  · cases hcss : is_css (cleanText p) with
    | none => exact absurd ((is_css_none_iff _).mp hcss) (cleanText_tokens_ne p h1)
    | some b => cases b <;> simp

/-- Claim C9: along the cleaning chain `is_css` is only applied to text
that is non-empty after whitespace normalization, so its division never
sees zero tokens and the chain never raises; applied directly to an
empty or whitespace-only string, `is_css` itself hits the
`ZeroDivisionError` (modelled by `none`). -/
theorem C9_css_division_safety (p : Paragraph) (s : String)
    (h : s.data.all isSpace = true) :
    cleanParagraph p ≠ .error () ∧ is_css s = none := by
  refine ⟨cleanParagraph_ne_error p, (is_css_none_iff s).mpr ?_⟩
  unfold pySplit wtokens
  rw [wtokensAux_all_space s.data (by simpa [List.all_eq_true] using h)]
  simp

theorem C9_css_division_safety_witness :
    ("  ".data.all isSpace = true)
    ∧ (cleanParagraph ⟨"hello", "title"⟩ ≠ .error () ∧ is_css "  " = none) :=
  ⟨by decide, C9_css_division_safety ⟨"hello", "title"⟩ "  " (by decide)⟩

/-!
Characterisation of surviving paragraphs and the document gate.
-/

theorem cleanParagraph_ok_some (p q : Paragraph) (h : cleanParagraph p = .ok (some q)) :
    q.text = cleanText p ∧ q.source = p.source ∧ cleanText p ≠ "" ∧
      is_html (cleanText p) = false ∧ is_css (cleanText p) = some false ∧
      (p.source = "title" → strContains p.text "getTime" = false) := by
  unfold cleanParagraph at h
  split_ifs at h with h0 h1 h2
  · exact absurd h (by simp)
  · exact absurd h (by simp)
  · exact absurd h (by simp)
  · cases hcss : is_css (cleanText p) with
    | none => rw [hcss] at h; exact absurd h (by simp)
    | some b =>
      rw [hcss] at h
      cases b with
      | true => exact absurd h (by simp)
      | false =>
        simp only [Except.ok.injEq, Option.some.injEq] at h
        subst h
        refine ⟨rfl, rfl, h1, by simpa using h2, rfl, ?_⟩
        intro hsrc
        by_contra hne
        exact h0 ⟨hsrc, by simpa using hne⟩

theorem cleanParagraph_eval (p : Paragraph)
    (hgt : ¬(p.source = "title" ∧ strContains p.text "getTime" = true))
    (hne : cleanText p ≠ "") (hhtml : is_html (cleanText p) = false)
    (hcss : is_css (cleanText p) = some false) :
    cleanParagraph p = .ok (some ⟨cleanText p, p.source⟩) := by
  unfold cleanParagraph
  rw [if_neg hgt, if_neg hne, if_neg (by simp [hhtml]), hcss]
  rfl

theorem cleanParagraphs_ok (ps : List Paragraph) :
    ∃ qs, cleanParagraphs ps = .ok qs := by
  induction ps with
  | nil => exact ⟨[], rfl⟩
  | cons p rest ih =>
    obtain ⟨qs, hqs⟩ := ih
    cases hp : cleanParagraph p with
    | error e => cases e; exact absurd hp (cleanParagraph_ne_error p)
    | ok q =>
      cases q with
      | none => exact ⟨qs, by unfold cleanParagraphs; rw [hp, hqs]⟩
      | some q' => exact ⟨q' :: qs, by unfold cleanParagraphs; rw [hp, hqs]⟩

theorem cleanParagraphs_mem (ps : List Paragraph) :
    ∀ qs, cleanParagraphs ps = .ok qs →
      ∀ q ∈ qs, ∃ p ∈ ps, cleanParagraph p = .ok (some q) := by
  induction ps with
  | nil =>
    intro qs h q hq
    simp only [cleanParagraphs, Except.ok.injEq] at h
    rw [← h] at hq
    simp at hq
  | cons p rest ih =>
    intro qs h q hq
    cases hp : cleanParagraph p with
    | error e => cases e; exact absurd hp (cleanParagraph_ne_error p)
    | ok qo =>
      obtain ⟨qs', hqs'⟩ := cleanParagraphs_ok rest
      unfold cleanParagraphs at h
      rw [hp, hqs'] at h
      cases qo with
      | none =>
        simp only [Except.ok.injEq] at h
        rw [← h] at hq
        obtain ⟨p', hp', hcp⟩ := ih qs' hqs' q hq
        exact ⟨p', by simp [hp'], hcp⟩
      | some q' =>
        simp only [Except.ok.injEq] at h
        rw [← h] at hq
        rcases List.mem_cons.mp hq with hq | hq
        · exact ⟨p, by simp, by rw [hp, hq]⟩
        · obtain ⟨p', hp', hcp⟩ := ih qs' hqs' q hq
          exact ⟨p', by simp [hp'], hcp⟩

theorem cleanProcess_eq (input : CleanInput) (ps : List Paragraph)
    (h : cleanParagraphs input.paragraphs = .ok ps) :
    cleanProcess input
      = (if ps.any (fun p => p.source = "title") then
          .ok (some ⟨input.id, input.category, ps, input.attributes⟩)
        else .ok none) := by
  unfold cleanProcess
  rw [h]

/-- Claim C1: every Document emitted by the cleaning stage is fully
well-formed — each paragraph has non-empty text that contains none of the
residual-HTML markers and is not flagged by the CSS-noise detector, and
at least one paragraph has source title; in every other successful case
the document is entirely absent (`.ok none`). -/
theorem C1_clean_documents_wellformed (input : CleanInput) (doc : Document)
    (h : cleanProcess input = .ok (some doc)) :
    (∀ q ∈ doc.paragraphs,
        q.text ≠ ""
          ∧ (∀ m ∈ HTML_MARKERS, strContains q.text m = false)
          ∧ is_css q.text = some false)
      ∧ ∃ q ∈ doc.paragraphs, q.source = "title" := by
  obtain ⟨ps, hps⟩ := cleanParagraphs_ok input.paragraphs
  rw [cleanProcess_eq input ps hps] at h
  by_cases hany : ps.any (fun p => p.source = "title")
  · rw [if_pos hany] at h
    simp only [Except.ok.injEq, Option.some.injEq] at h
    subst h
    constructor
    · intro q hq
      obtain ⟨p, _, hcp⟩ :=
        cleanParagraphs_mem input.paragraphs ps hps q (by simpa using hq)
      obtain ⟨htext, _, hne, hhtml, hcss, _⟩ := cleanParagraph_ok_some p q hcp
      refine ⟨by rw [htext]; exact hne, ?_, by rw [htext]; exact hcss⟩
      have hmark : HTML_MARKERS.any (fun m => strContains q.text m) = false := by
        rw [← is_html_eq_any, htext]; exact hhtml
      intro m hm
      rw [List.any_eq_false] at hmark
      simpa using hmark m hm
    · have hex := List.any_eq_true.mp hany
      obtain ⟨q, hq, hsrc⟩ := hex
      exact ⟨q, by simpa using hq, by simpa using hsrc⟩
  · rw [if_neg hany] at h
    exact absurd h (by simp)

/-- Concrete input for the C1 witness: a title paragraph and a
description paragraph with embedded markup. -/
def c1InputW : CleanInput :=
  ⟨.atom (.jstr "X1"), .atom (.jstr "c"),
    [⟨"Hello  World", "title"⟩, ⟨"<p>Nice <script>evil()</script>item</p>", "description"⟩],
    .atom .jnull⟩

/-- The document the cleaning stage emits for `c1InputW`. -/
def c1DocW : Document :=
  ⟨.atom (.jstr "X1"), .atom (.jstr "c"),
    [⟨"Hello World", "title"⟩, ⟨"Nice item", "description"⟩], .atom .jnull⟩

theorem C1_clean_documents_wellformed_witness :
    cleanProcess c1InputW = .ok (some c1DocW)
      ∧ ((∀ q ∈ c1DocW.paragraphs,
            q.text ≠ ""
              ∧ (∀ m ∈ HTML_MARKERS, strContains q.text m = false)
              ∧ is_css q.text = some false)
          ∧ ∃ q ∈ c1DocW.paragraphs, q.source = "title") :=
  ⟨by decide, C1_clean_documents_wellformed c1InputW c1DocW (by decide)⟩

/-- Claim C3: after the per-paragraph cleaning chain, a Document is
emitted if and only if at least one surviving paragraph has source
title; when none exists the whole document is dropped and nothing is
emitted for that identifier. -/
theorem C3_title_gate (input : CleanInput) (ps : List Paragraph)
    (h : cleanParagraphs input.paragraphs = .ok ps) :
    (cleanProcess input = .ok (some ⟨input.id, input.category, ps, input.attributes⟩)
        ↔ ∃ q ∈ ps, q.source = "title")
      ∧ (cleanProcess input = .ok none ↔ ¬∃ q ∈ ps, q.source = "title") := by
  rw [cleanProcess_eq input ps h]
  by_cases hany : ps.any (fun p => p.source = "title")
  · have hex : ∃ q ∈ ps, q.source = "title" := by
      obtain ⟨q, hq, hsrc⟩ := List.any_eq_true.mp hany
      exact ⟨q, by simpa using hq, by simpa using hsrc⟩
    rw [if_pos hany]
    exact ⟨⟨fun _ => hex, fun _ => rfl⟩,
      ⟨fun hh => absurd hh (by simp), fun hh => absurd hex hh⟩⟩
  · have hnex : ¬∃ q ∈ ps, q.source = "title" := by
      intro ⟨q, hq, hsrc⟩
      exact hany (List.any_eq_true.mpr ⟨q, by simpa using hq, by simpa using hsrc⟩)
    rw [if_neg hany]
    exact ⟨⟨fun hh => absurd hh (by simp), fun hh => absurd hh hnex⟩,
      ⟨fun _ => hnex, fun _ => rfl⟩⟩

/-- Concrete input for the C3 witness: the only title paragraph carries
the getTime artefact (spec scenario B), so no surviving title exists. -/
def c3InputW : CleanInput :=
  ⟨.atom (.jstr "X2"), .atom (.jstr "c"),
    [⟨"var d = new Date().getTime()", "title"⟩, ⟨"A nice item", "description"⟩],
    .atom .jnull⟩

theorem C3_title_gate_witness :
    cleanParagraphs c3InputW.paragraphs = .ok [⟨"A nice item", "description"⟩]
      ∧ cleanProcess c3InputW = .ok none :=
  ⟨by decide,
    (C3_title_gate c3InputW [⟨"A nice item", "description"⟩] (by decide)).2.mpr
      (by decide)⟩

/-!
Behaviour of `remove_tags` on text the markup parse returns unchanged,
and idempotence of the cleaning chain on such text.
-/

theorem remove_tags_single_data (s : String) (h : tokenize s.data = [.data s.data]) :
    remove_tags s = pyStrip s := by
  unfold remove_tags pyStrip
  rw [h]
  show (⟨joinSp (([pyStripL s.data]).filter (fun l => l ≠ []))⟩ : String)
      = (⟨pyStripL s.data⟩ : String)
  by_cases hz : pyStripL s.data = []
  · rw [hz]
    rfl
  · have hf : ([pyStripL s.data]).filter (fun l => l ≠ []) = [pyStripL s.data] := by
      simp [hz]
    rw [hf]
    rfl

theorem pyStrip_normalizeWs_str (s : String) :
    pyStrip (normalizeWs s) = normalizeWs s := by
  unfold pyStrip
  rw [pyStrip_normalizeWs]

/-- Claim C7 counterexample: on the input text in which the markup parse
finds no tags (a single text node), the result still differs from the
whitespace-trimmed input, because the parse decodes the character
reference. -/
theorem C7_counterexample :
    tokenize ("5 &lt; 6").data = [.data ("5 < 6").data]
      ∧ remove_tags "5 &lt; 6" = "5 < 6"
      ∧ pyStrip "5 &lt; 6" = "5 &lt; 6"
      ∧ remove_tags "5 &lt; 6" ≠ pyStrip "5 &lt; 6" :=
  ⟨by decide, by decide, by decide, by decide⟩

/-- Claim C7 (amended): for every input text in which the markup parse
finds no tags and decodes no character references — the parse returns
the input unchanged as a single text node — the markup-stripping stage
returns exactly the whitespace-trimmed input (and the empty input maps
to itself). -/
theorem C7_remove_tags_plain (s : String)
    (h : tokenize s.data = [.data s.data] ∨ s = "") :
    remove_tags s = pyStrip s := by
  rcases h with h | h
  · exact remove_tags_single_data s h
  · subst h; rfl

theorem C7_remove_tags_plain_witness :
    (tokenize ("hello world").data = [.data ("hello world").data]
        ∨ ("hello world" : String) = "")
      ∧ remove_tags "hello world" = pyStrip "hello world" :=
  ⟨Or.inl (by decide), C7_remove_tags_plain "hello world" (Or.inl (by decide))⟩

/-- Claim C8 counterexample: the cleaning chain is not idempotent.  The
surviving description paragraph cleans to the text with one decoded
layer of entities, and re-running decodes a second layer; the surviving
title paragraph cleans to a text that now contains getTime (decoded
from a numeric character reference), and re-running drops it. -/
theorem C8_counterexample :
    cleanParagraph ⟨"a &amp;lt; b", "description"⟩
        = .ok (some ⟨"a &lt; b", "description"⟩)
      ∧ cleanParagraph ⟨"a &lt; b", "description"⟩
        = .ok (some ⟨"a < b", "description"⟩)
      ∧ cleanParagraph ⟨"g&#101;tTime x", "title"⟩
        = .ok (some ⟨"getTime x", "title"⟩)
      ∧ cleanParagraph ⟨"getTime x", "title"⟩ = .ok none :=
  ⟨by decide, by decide, by decide, by decide⟩

/-- Claim C8 (amended): the cleaning chain is idempotent on every
surviving paragraph whose cleaned text re-parses as a single unchanged
text node (no tags, no character references) and, when the source is
title, does not contain getTime: re-running the chain on the cleaned
text yields the identical text and does not drop the paragraph. -/
theorem C8_clean_idempotent (p q : Paragraph)
    (h : cleanParagraph p = .ok (some q))
    (hplain : tokenize q.text.data = [.data q.text.data])
    (hgt : q.source = "title" → strContains q.text "getTime" = false) :
    cleanParagraph q = .ok (some q) := by
  obtain ⟨htext, _, hne, hhtml, hcss, _⟩ := cleanParagraph_ok_some p q h
  have hstrip : pyStrip q.text = q.text := by
    rw [htext]; exact pyStrip_normalizeWs_str (remove_tags (unicodeRoundtrip p.text))
  have hrt : remove_tags q.text = q.text := by
    rw [remove_tags_single_data q.text hplain, hstrip]
  have hclean : cleanText q = q.text := by
    show normalizeWs (remove_tags (unicodeRoundtrip q.text)) = q.text
    show normalizeWs (remove_tags q.text) = q.text
    rw [hrt, htext]
    exact normalizeWs_idem (remove_tags (unicodeRoundtrip p.text))
  have heval := cleanParagraph_eval q
    (fun hh => by rw [hgt hh.1] at hh; exact absurd hh.2 (by simp))
    (by rw [hclean, htext]; exact hne)
    (by rw [hclean, htext]; exact hhtml)
    (by rw [hclean, htext]; exact hcss)
  rw [heval, hclean]

theorem C8_clean_idempotent_witness :
    cleanParagraph ⟨"Hello   World", "title"⟩ = .ok (some ⟨"Hello World", "title"⟩)
      ∧ tokenize ("Hello World").data = [.data ("Hello World").data]
      ∧ cleanParagraph ⟨"Hello World", "title"⟩ = .ok (some ⟨"Hello World", "title"⟩) :=
  ⟨by decide, by decide,
    C8_clean_idempotent ⟨"Hello   World", "title"⟩ ⟨"Hello World", "title"⟩
      (by decide) (by decide) (by decide)⟩

/-!
The record joiner (claim C5) and the source flattener (claims C6, C10).
-/

/-- Claim C5 counterexample: a record with no asin field still yields a
joined output when the index maps the empty-string identifier to a
non-empty label. -/
theorem C5_counterexample :
    joinWithLabels [] [("", [("id", .atom (.jstr ""))])]
      = some ([], [("id", .atom (.jstr ""))]) := by decide

theorem joinWithLabels_none (rec : JObj) (idx : List (String × JObj))
    (hk : asinKey rec = none) : joinWithLabels rec idx = none := by
  unfold joinWithLabels
  rw [hk]

theorem joinWithLabels_key (rec : JObj) (idx : List (String × JObj)) (k : String)
    (hk : asinKey rec = some k) :
    joinWithLabels rec idx
      = (match alookup idx k with
        | none => none
        | some labels => if labels = [] then none else some (rec, labels)) := by
  unfold joinWithLabels
  rw [hk]

/-- Claim C5 (amended): a missing asin is looked up as the empty string;
the join yields the record paired with the matched label (a copy, in
this value model) exactly when the effective key finds a non-empty
label, and yields nothing when the lookup misses or the label is
empty. -/
theorem C5_join_amended (rec : JObj) (idx : List (String × JObj)) :
    (∀ l, (asinKey rec).bind (alookup idx) = some l → l ≠ [] →
        joinWithLabels rec idx = some (rec, l))
      ∧ ((asinKey rec).bind (alookup idx) = none
            ∨ (asinKey rec).bind (alookup idx) = some ([] : JObj)
          → joinWithLabels rec idx = none) := by
  cases hk : asinKey rec with
  | none =>
    refine ⟨fun l hl => ?_, fun _ => joinWithLabels_none rec idx hk⟩
    exact absurd hl (by simp)
  | some k =>
    rw [joinWithLabels_key rec idx k hk]
    cases halo : alookup idx k with
    | none =>
      constructor
      · intro l hl
        have hl' : alookup idx k = some l := hl
        rw [halo] at hl'
        exact absurd hl' (by simp)
      · intro _
        rfl
    | some labels =>
      constructor
      · intro l hl hne
        have hl' : alookup idx k = some l := hl
        rw [halo] at hl'
        injection hl' with hl'
        subst hl'
        show (if labels = [] then none else some (rec, labels)) = some (rec, labels)
        rw [if_neg hne]
      · intro hd
        rcases hd with hd | hd
        · have hd' : alookup idx k = none := hd
          rw [halo] at hd'
          exact absurd hd' (by simp)
        · have hd' : alookup idx k = some [] := hd
          rw [halo] at hd'
          injection hd' with hd'
          subst hd'
          show (if ([] : JObj) = [] then none else some (rec, [])) = none
          rw [if_pos rfl]

theorem C5_join_amended_witness :
    ((asinKey [("asin", JVal.atom (.jstr "A"))]).bind
        (alookup [("A", [("id", JVal.atom (.jstr "A"))])])
      = some [("id", JVal.atom (.jstr "A"))])
      ∧ joinWithLabels [("asin", .atom (.jstr "A"))] [("A", [("id", .atom (.jstr "A"))])]
        = some ([("asin", .atom (.jstr "A"))], [("id", .atom (.jstr "A"))]) :=
  ⟨by decide,
    (C5_join_amended [("asin", .atom (.jstr "A"))] [("A", [("id", .atom (.jstr "A"))])]).1
      [("id", .atom (.jstr "A"))] (by decide) (by decide)⟩

/-- Whether a JSON leaf is a string (the only elements Python can call
`.strip()` on). -/
def isStrLeaf : JLeaf → Bool
  | .jstr _ => true
  | _ => false

theorem stripFilter_cons_str (src s : String) (rest : List JLeaf) :
    stripFilter src (JLeaf.jstr s :: rest)
      = (match stripFilter src rest with
        | .error e => .error e
        | .ok ps => if pyStrip s = "" then .ok ps else .ok (⟨pyStrip s, src⟩ :: ps)) := rfl

theorem stripFilter_cons_str_ok (src s : String) (rest : List JLeaf)
    (ps : List Paragraph) (hps : stripFilter src rest = .ok ps) :
    stripFilter src (JLeaf.jstr s :: rest)
      = if pyStrip s = "" then .ok ps else .ok (⟨pyStrip s, src⟩ :: ps) := by
  rw [stripFilter_cons_str, hps]

theorem stripFilter_cons_nonstr (src : String) (t : JLeaf) (rest : List JLeaf)
    (ht : isStrLeaf t = false) : stripFilter src (t :: rest) = .error () := by
  cases t with
  | jstr s => simp [isStrLeaf] at ht
  | jnum n => rfl
  | jbool b => rfl
  | jnull => rfl

theorem stripFilter_ok (src : String) (ts : List JLeaf)
    (h : ∀ t ∈ ts, isStrLeaf t = true) :
    ∃ ps, stripFilter src ts = .ok ps := by
  induction ts with
  | nil => exact ⟨[], rfl⟩
  | cons t rest ih =>
    obtain ⟨ps, hps⟩ := ih (fun u hu => h u (by simp [hu]))
    have ht : isStrLeaf t = true := h t (by simp)
    cases t with
    | jstr s =>
      by_cases hs : pyStrip s = ""
      · exact ⟨ps, by rw [stripFilter_cons_str_ok src s rest ps hps, if_pos hs]⟩
      · exact ⟨⟨pyStrip s, src⟩ :: ps,
          by rw [stripFilter_cons_str_ok src s rest ps hps, if_neg hs]⟩
    | jnum n => simp [isStrLeaf] at ht
    | jbool b => simp [isStrLeaf] at ht
    | jnull => simp [isStrLeaf] at ht

theorem stripFilter_mem (src : String) (ts : List JLeaf) :
    ∀ ps, stripFilter src ts = .ok ps →
      ∀ p ∈ ps, p.source = src ∧ p.text ≠ ""
        ∧ ∃ str, JLeaf.jstr str ∈ ts ∧ p.text = pyStrip str := by
  induction ts with
  | nil =>
    intro ps h p hp
    simp only [stripFilter, Except.ok.injEq] at h
    rw [← h] at hp
    simp at hp
  | cons t rest ih =>
    intro ps h p hp
    by_cases ht : isStrLeaf t = true
    · obtain ⟨s, rfl⟩ : ∃ s, t = JLeaf.jstr s := by
        cases t with
        | jstr s => exact ⟨s, rfl⟩
        | jnum n => simp [isStrLeaf] at ht
        | jbool b => simp [isStrLeaf] at ht
        | jnull => simp [isStrLeaf] at ht
      cases hrest : stripFilter src rest with
      | error e =>
        cases e
        rw [stripFilter_cons_str, hrest] at h
        exact absurd h (by simp)
      | ok ps' =>
        rw [stripFilter_cons_str_ok src s rest ps' hrest] at h
        by_cases hs : pyStrip s = ""
        · rw [if_pos hs] at h
          simp only [Except.ok.injEq] at h
          rw [← h] at hp
          obtain ⟨hsrc, hne, str', hmem, htext⟩ := ih ps' hrest p hp
          exact ⟨hsrc, hne, str', by simp [hmem], htext⟩
        · rw [if_neg hs] at h
          simp only [Except.ok.injEq] at h
          rw [← h] at hp
          rcases List.mem_cons.mp hp with hp | hp
          · subst hp
            exact ⟨rfl, by simpa using hs, s, by simp, rfl⟩
          · obtain ⟨hsrc, hne, str', hmem, htext⟩ := ih ps' hrest p hp
            exact ⟨hsrc, hne, str', by simp [hmem], htext⟩
    · rw [stripFilter_cons_nonstr src t rest (by simpa using ht)] at h
      exact absurd h (by simp)

theorem paragraphsForSources_cons_ok (s : String) (rest : List String) (rec : JObj)
    (ps qs : List Paragraph) (hps : createParagraphs s rec = .ok ps)
    (hqs : paragraphsForSources rest rec = .ok qs) :
    paragraphsForSources (s :: rest) rec = .ok (ps ++ qs) := by
  unfold paragraphsForSources
  rw [hps, hqs]

theorem paragraphsForSources_ok (ss : List String) (rec : JObj)
    (h : ∀ s ∈ ss, ∀ t ∈ fieldTexts rec s, isStrLeaf t = true) :
    ∃ ps, paragraphsForSources ss rec = .ok ps := by
  induction ss with
  | nil => exact ⟨[], rfl⟩
  | cons s rest ih =>
    obtain ⟨qs, hqs⟩ := ih (fun u hu => h u (by simp [hu]))
    obtain ⟨ps, hps⟩ := stripFilter_ok s (fieldTexts rec s) (h s (by simp))
    exact ⟨ps ++ qs, paragraphsForSources_cons_ok s rest rec ps qs hps hqs⟩

theorem convertSources_ok (rec labels : JObj) (pss : List Paragraph)
    (hpss : paragraphsForSources SOURCES rec = .ok pss) :
    convertSources rec labels
      = .ok (labels.foldl (fun d kv => dictInsert d kv.1 (.fromLabel kv.2))
          [("paragraphs", .paras pss)]) := by
  unfold convertSources
  rw [hpss]

/-- Claim C6 counterexample: a list-valued source field containing a
non-string element makes the flattener raise (Python `AttributeError`
from `text.strip()`), so it does not complete without error. -/
theorem C6_counterexample :
    convertSources [("description", .jarr [.jnull])] [] = .error () := by decide

/-- Claim C6 (amended): the flattener treats absent, null, numeric or
boolean source field values as empty, emits a paragraph only for
candidates with non-empty stripped text, and completes without error
provided every element of a list-valued source field is a string (a
non-string element raises). -/
theorem C6_flattener_amended (rec labels : JObj)
    (h : ∀ s ∈ SOURCES, ∀ t ∈ fieldTexts rec s, isStrLeaf t = true) :
    (∃ out, convertSources rec labels = .ok out)
      ∧ (∀ s : String, (alookup rec s = none
            ∨ alookup rec s = some (.atom .jnull)
            ∨ (∃ n, alookup rec s = some (.atom (.jnum n)))
            ∨ (∃ b, alookup rec s = some (.atom (.jbool b))))
          → createParagraphs s rec = .ok [])
      ∧ (∀ s ps, createParagraphs s rec = .ok ps →
          ∀ p ∈ ps, p.source = s ∧ p.text ≠ ""
            ∧ ∃ str, JLeaf.jstr str ∈ fieldTexts rec s ∧ p.text = pyStrip str) := by
  refine ⟨?_, ?_, ?_⟩
  · obtain ⟨pss, hpss⟩ := paragraphsForSources_ok SOURCES rec h
    exact ⟨_, convertSources_ok rec labels pss hpss⟩
  · intro s hcase
    unfold createParagraphs fieldTexts
    rcases hcase with hc | hc | ⟨n, hc⟩ | ⟨b, hc⟩ <;> rw [hc] <;> rfl
  · intro s ps hps p hp
    exact stripFilter_mem s (fieldTexts rec s) ps hps p hp

/-- Concrete record for the C6 witness. -/
def c6RecW : JObj :=
  [("title", .atom (.jstr "  T  ")), ("description", .jarr [.jstr "a", .jstr "  "])]

theorem C6_flattener_amended_witness :
    (∀ s ∈ SOURCES, ∀ t ∈ fieldTexts c6RecW s, isStrLeaf t = true)
      ∧ ∃ out, convertSources c6RecW [] = .ok out :=
  ⟨by decide, (C6_flattener_amended c6RecW [] (by decide)).1⟩

/-!
Dict-update semantics of `ConvertSourcesFn.process` (claim C10).
-/

theorem alookup_map_overwrite (d : OObj) (k : String) (v : OVal)
    (h : d.any (fun kv => kv.1 = k) = true) :
    alookup (d.map (fun kv => if kv.1 = k then (k, v) else kv)) k = some v := by
  induction d with
  | nil => simp at h
  | cons kv rest ih =>
    simp only [List.map_cons]
    by_cases hk : kv.1 = k
    · rw [if_pos hk]
      unfold alookup
      rw [if_pos rfl]
    · rw [if_neg hk]
      unfold alookup
      rw [if_neg hk]
      apply ih
      simp only [List.any_cons, Bool.or_eq_true, decide_eq_true_eq] at h
      rcases h with h | h
      · exact absurd h hk
      · exact h

theorem alookup_map_overwrite_other (d : OObj) (k k' : String) (v : OVal)
    (h : k' ≠ k) :
    alookup (d.map (fun kv => if kv.1 = k then (k, v) else kv)) k' = alookup d k' := by
  induction d with
  | nil => rfl
  | cons kv rest ih =>
    simp only [List.map_cons]
    by_cases hk : kv.1 = k
    · rw [if_pos hk]
      unfold alookup
      rw [if_neg (fun hh : k = k' => h hh.symm),
        if_neg (fun hh : kv.1 = k' => h (by rw [← hh, hk]))]
      exact ih
    · rw [if_neg hk]
      unfold alookup
      by_cases hk' : kv.1 = k'
      · rw [if_pos hk', if_pos hk']
      · rw [if_neg hk', if_neg hk']
        exact ih

theorem alookup_append_single (d : OObj) (k : String) (v : OVal)
    (h : d.any (fun kv => kv.1 = k) = false) :
    alookup (d ++ [(k, v)]) k = some v := by
  induction d with
  | nil =>
    show alookup [(k, v)] k = some v
    unfold alookup
    rw [if_pos rfl]
  | cons kv rest ih =>
    simp only [List.any_cons, Bool.or_eq_false_iff, decide_eq_false_iff_not] at h
    show alookup (kv :: (rest ++ [(k, v)])) k = some v
    unfold alookup
    rw [if_neg h.1]
    exact ih (by simpa using h.2)

theorem alookup_append_single_other (d : OObj) (k k' : String) (v : OVal)
    (h : k' ≠ k) :
    alookup (d ++ [(k, v)]) k' = alookup d k' := by
  induction d with
  | nil =>
    show alookup [(k, v)] k' = none
    unfold alookup
    rw [if_neg (fun hh : k = k' => h hh.symm)]
    rfl
  | cons kv rest ih =>
    show alookup (kv :: (rest ++ [(k, v)])) k' = alookup (kv :: rest) k'
    unfold alookup
    by_cases hk' : kv.1 = k'
    · rw [if_pos hk', if_pos hk']
    · rw [if_neg hk', if_neg hk']
      exact ih

theorem alookup_dictInsert_self (d : OObj) (k : String) (v : OVal) :
    alookup (dictInsert d k v) k = some v := by
  unfold dictInsert
  by_cases h : d.any (fun kv => kv.1 = k) = true
  · rw [if_pos h]
    exact alookup_map_overwrite d k v h
  · rw [if_neg h]
    exact alookup_append_single d k v (Bool.eq_false_iff.mpr h)

theorem alookup_dictInsert_other (d : OObj) (k k' : String) (v : OVal)
    (h : k' ≠ k) :
    alookup (dictInsert d k v) k' = alookup d k' := by
  unfold dictInsert
  by_cases hany : d.any (fun kv => kv.1 = k) = true
  · rw [if_pos hany]
    exact alookup_map_overwrite_other d k k' v h
  · rw [if_neg hany]
    exact alookup_append_single_other d k k' v h

theorem foldl_insert_preserve (rest : JObj) :
    ∀ (d : OObj) (k : String), (∀ kv ∈ rest, kv.1 ≠ k) →
      alookup (rest.foldl (fun d kv => dictInsert d kv.1 (.fromLabel kv.2)) d) k
        = alookup d k := by
  induction rest with
  | nil => intro d k _; rfl
  | cons kv rest' ih =>
    intro d k h
    simp only [List.foldl_cons]
    rw [ih _ k (fun kv' h' => h kv' (by simp [h']))]
    exact alookup_dictInsert_other d kv.1 k (.fromLabel kv.2) (h kv (by simp)).symm

theorem alookup_labels_foldl (labels : JObj) :
    ∀ (d : OObj) (k : String) (v : JVal),
      (labels.map Prod.fst).Nodup → alookup labels k = some v →
      alookup (labels.foldl (fun d kv => dictInsert d kv.1 (.fromLabel kv.2)) d) k
        = some (.fromLabel v) := by
  induction labels with
  | nil =>
    intro d k v _ hv
    simp [alookup] at hv
  | cons kv rest ih =>
    intro d k v hnodup hv
    simp only [List.foldl_cons]
    unfold alookup at hv
    by_cases hk : kv.1 = k
    · rw [if_pos hk] at hv
      injection hv with hv
      have hnot : ∀ kv' ∈ rest, kv'.1 ≠ k := by
        simp only [List.map_cons, List.nodup_cons] at hnodup
        intro kv' hkv' hh
        exact hnodup.1 (hk ▸ hh ▸ List.mem_map_of_mem Prod.fst hkv')
      rw [foldl_insert_preserve rest _ k hnot, hk, alookup_dictInsert_self, hv]
    · rw [if_neg hk] at hv
      refine ih _ k v ?_ hv
      simp only [List.map_cons, List.nodup_cons] at hnodup
      exact hnodup.2

/-- Claim C10: in the output of `ConvertSourcesFn.process`, the label
record's fields overwrite the like-named key of the flattening result —
when the label record contains a key named paragraphs, the emitted
object's paragraphs value is the label's value, not the flattened
paragraph list. -/
theorem C10_label_overwrites (rec labels : JObj) (out : OObj) (v : JVal)
    (hnodup : (labels.map Prod.fst).Nodup)
    (hv : alookup labels "paragraphs" = some v)
    (hout : convertSources rec labels = .ok out) :
    alookup out "paragraphs" = some (.fromLabel v) := by
  cases hps : paragraphsForSources SOURCES rec with
  | error e =>
    unfold convertSources at hout
    rw [hps] at hout
    exact absurd hout (by simp)
  | ok pss =>
    rw [convertSources_ok rec labels pss hps] at hout
    simp only [Except.ok.injEq] at hout
    rw [← hout]
    exact alookup_labels_foldl labels _ "paragraphs" v hnodup hv

theorem C10_label_overwrites_witness :
    ((([("paragraphs", JVal.atom (.jstr "boom"))] : JObj).map Prod.fst).Nodup
        ∧ alookup [("paragraphs", JVal.atom (.jstr "boom"))] "paragraphs"
          = some (.atom (.jstr "boom"))
        ∧ convertSources [] [("paragraphs", .atom (.jstr "boom"))]
          = .ok [("paragraphs", .fromLabel (.atom (.jstr "boom")))])
      ∧ alookup [("paragraphs", OVal.fromLabel (.atom (.jstr "boom")))] "paragraphs"
        = some (.fromLabel (.atom (.jstr "boom"))) :=
  ⟨⟨by decide, by decide, by decide⟩,
    C10_label_overwrites [] [("paragraphs", .atom (.jstr "boom"))]
      [("paragraphs", .fromLabel (.atom (.jstr "boom")))] (.atom (.jstr "boom"))
      (by decide) (by decide) (by decide)⟩

/-!
The Deduplicator (claim C4): grouping documents by identifier preserves
the supplied order, and taking the head of each group yields the first
document per identifier.
-/

/-- Invariant of the grouping fold: after consuming a prefix, group keys
are distinct, each group is non-empty with the first document for its
key at its head, and every consumed document's key has a group. -/
def groupInv (consumed : List Document) (gs : List (JVal × List Document)) : Prop :=
  ((gs.map Prod.fst).Nodup)
    ∧ (∀ g ∈ gs, g.2 ≠ [] ∧ g.2.head? = consumed.find? (fun x => x.id = g.1))
    ∧ (∀ x ∈ consumed, x.id ∈ gs.map Prod.fst)

theorem groupInv_step (consumed : List Document) (gs : List (JVal × List Document))
    (d : Document) (h : groupInv consumed gs) :
    groupInv (consumed ++ [d]) (addToGroups gs d) := by
  obtain ⟨hnodup, hgrp, hmem⟩ := h
  unfold addToGroups
  by_cases hany : gs.any (fun g => g.1 = d.id) = true
  · rw [if_pos hany]
    have hkeys : (gs.map (fun g => if g.1 = d.id then (g.1, g.2 ++ [d]) else g)).map Prod.fst
        = gs.map Prod.fst := by
      rw [List.map_map]
      apply List.map_congr_left
      intro g _
      by_cases hg : g.1 = d.id <;> simp [hg]
    refine ⟨by rw [hkeys]; exact hnodup, ?_, ?_⟩
    · intro g hg
      obtain ⟨g0, hg0, hmap⟩ := List.mem_map.mp hg
      obtain ⟨hne0, hhead0⟩ := hgrp g0 hg0
      by_cases hgid : g0.1 = d.id
      · rw [if_pos hgid] at hmap
        subst hmap
        refine ⟨by simp, ?_⟩
        show (g0.2 ++ [d]).head? = (consumed ++ [d]).find? (fun x => x.id = g0.1)
        rw [List.find?_append]
        cases hg02 : g0.2 with
        | nil => exact absurd hg02 hne0
        | cons y ys =>
          have hfind : consumed.find? (fun x => x.id = g0.1) = some y := by
            rw [← hhead0, hg02]
            rfl
          rw [hfind]
          simp
      · rw [if_neg hgid] at hmap
        subst hmap
        refine ⟨hne0, ?_⟩
        rw [List.find?_append, ← hhead0]
        cases hg02 : g0.2 with
        | nil => exact absurd hg02 hne0
        | cons y ys => simp
    · intro x hx
      rcases List.mem_append.mp hx with hx | hx
      · rw [hkeys]
        exact hmem x hx
      · simp only [List.mem_singleton] at hx
        subst hx
        rw [hkeys]
        obtain ⟨g, hg, hgid⟩ := List.any_eq_true.mp hany
        exact List.mem_map.mpr ⟨g, hg, by simpa using hgid⟩
  · rw [if_neg hany]
    have hnotin : d.id ∉ gs.map Prod.fst := by
      intro hin
      obtain ⟨g, hg, hgid⟩ := List.mem_map.mp hin
      exact absurd (List.any_eq_true.mpr ⟨g, hg, by simpa using hgid⟩) hany
    have hnone : consumed.find? (fun x => x.id = d.id) = none := by
      rw [List.find?_eq_none]
      intro x hx hpx
      obtain ⟨g, hg, hgid⟩ := List.mem_map.mp (hmem x hx)
      apply hany
      refine List.any_eq_true.mpr ⟨g, hg, ?_⟩
      simp only [decide_eq_true_eq] at hpx ⊢
      rw [hgid, hpx]
    refine ⟨?_, ?_, ?_⟩
    · rw [List.map_append]
      refine List.Nodup.append hnodup (by simp) ?_
      intro x hx hx'
      simp only [List.map_cons, List.map_nil, List.mem_singleton] at hx'
      subst hx'
      exact hnotin hx
    · intro g hg
      rcases List.mem_append.mp hg with hg | hg
      · obtain ⟨hne0, hhead0⟩ := hgrp g hg
        refine ⟨hne0, ?_⟩
        rw [List.find?_append, ← hhead0]
        cases hg02 : g.2 with
        | nil => exact absurd hg02 hne0
        | cons y ys => simp
      · simp only [List.mem_singleton] at hg
        subst hg
        refine ⟨by simp, ?_⟩
        show [d].head? = (consumed ++ [d]).find? (fun x => x.id = d.id)
        rw [List.find?_append, hnone]
        simp [List.find?]
    · intro x hx
      rw [List.map_append]
      rcases List.mem_append.mp hx with hx | hx
      · exact List.mem_append.mpr (Or.inl (hmem x hx))
      · simp only [List.mem_singleton] at hx
        subst hx
        exact List.mem_append.mpr (Or.inr (by simp))

theorem groupInv_foldl (docs : List Document) :
    ∀ (consumed : List Document) (gs : List (JVal × List Document)),
      groupInv consumed gs →
      groupInv (consumed ++ docs) (docs.foldl addToGroups gs) := by
  induction docs with
  | nil =>
    intro consumed gs h
    simpa using h
  | cons d rest ih =>
    intro consumed gs h
    simp only [List.foldl_cons]
    have step := ih (consumed ++ [d]) (addToGroups gs d) (groupInv_step consumed gs d h)
    simpa [List.append_assoc] using step

theorem groupInv_groupById (docs : List Document) : groupInv docs (groupById docs) := by
  have base : groupInv [] [] := ⟨by simp, by simp, by simp⟩
  have := groupInv_foldl docs [] [] base
  simpa [groupById] using this

theorem filterMap_head_map_id (gs : List (JVal × List Document))
    (h : ∀ g ∈ gs, ∃ d, g.2.head? = some d ∧ d.id = g.1) :
    (gs.filterMap (fun g => g.2.head?)).map (fun d => d.id) = gs.map Prod.fst := by
  induction gs with
  | nil => rfl
  | cons g rest ih =>
    obtain ⟨d, hd, hid⟩ := h g (by simp)
    simp only [List.filterMap_cons, hd]
    simp only [List.map_cons, hid]
    rw [ih (fun g' hg' => h g' (by simp [hg']))]

/-- Claim C4: for every finite sequence of documents, the Deduplicator
outputs exactly one document per distinct identifier — the first
document of each identifier's group in the supplied order — and hence
no two output documents share an identifier. -/
theorem C4_dedupe_spec (docs : List Document) :
    ((dedupe docs).map (fun d => d.id)).Nodup
      ∧ (∀ d ∈ dedupe docs, docs.find? (fun x => x.id = d.id) = some d)
      ∧ (∀ x ∈ docs, ∃ d ∈ dedupe docs, d.id = x.id) := by
  obtain ⟨hnodup, hgrp, hmem⟩ := groupInv_groupById docs
  have hprop : ∀ g ∈ groupById docs, ∃ d, g.2.head? = some d ∧ d.id = g.1 := by
    intro g hg
    obtain ⟨hne, hhead⟩ := hgrp g hg
    cases hg2 : g.2 with
    | nil => exact absurd hg2 hne
    | cons y ys =>
      refine ⟨y, by simp, ?_⟩
      have hfind : docs.find? (fun x => x.id = g.1) = some y := by
        rw [← hhead, hg2]
        rfl
      simpa using List.find?_some hfind
  refine ⟨?_, ?_, ?_⟩
  · show ((groupById docs).filterMap (fun g => g.2.head?)).map (fun d => d.id) |>.Nodup
    rw [filterMap_head_map_id (groupById docs) hprop]
    exact hnodup
  · intro d hd
    obtain ⟨g, hg, hghead⟩ := List.mem_filterMap.mp hd
    obtain ⟨hne, hhead⟩ := hgrp g hg
    have hfind : docs.find? (fun x => x.id = g.1) = some d := by
      rw [← hhead]
      exact hghead
    have hid : d.id = g.1 := by simpa using List.find?_some hfind
    rw [hid]
    exact hfind
  · intro x hx
    obtain ⟨g, hg, hgid⟩ := List.mem_map.mp (hmem x hx)
    obtain ⟨hne, hhead⟩ := hgrp g hg
    cases hg2 : g.2 with
    | nil => exact absurd hg2 hne
    | cons y ys =>
      have hhy : g.2.head? = some y := by rw [hg2]; rfl
      have hfind : docs.find? (fun x => x.id = g.1) = some y := by
        rw [← hhead]
        exact hhy
      have hyid : y.id = g.1 := by simpa using List.find?_some hfind
      refine ⟨y, List.mem_filterMap.mpr ⟨g, hg, hhy⟩, by rw [hyid, hgid]⟩

/-- Two documents sharing an identifier, for the C4 witness. -/
def c4DocA : Document := ⟨.atom (.jstr "X2"), .atom (.jstr "c"), [], .atom .jnull⟩

/-- A second document with the same identifier but different payload. -/
def c4DocB : Document := ⟨.atom (.jstr "X2"), .atom (.jstr "d"), [], .atom .jnull⟩

theorem C4_dedupe_spec_witness :
    c4DocA ∈ dedupe [c4DocA, c4DocB]
      ∧ [c4DocA, c4DocB].find? (fun x => x.id = c4DocA.id) = some c4DocA :=
  ⟨by decide, (C4_dedupe_spec [c4DocA, c4DocB]).2.1 c4DocA (by decide)⟩
